import Mathlib

/-!
Verification of the docfx-assistant topic metadata index.

This file gives a shallow embedding, in Lean, of the core of the
docfx-assistant extension:

* the topic data model and categorization pipeline (src/docfx/docfx.ts),
* the glob matcher (src/docfx/docfx.ts FileMatcher, src/docfx/fs-utils.ts
  createMatchers),
* the in-memory topic index and its mutation operations
  (src/metadata-cache.ts: the loadTopicMetadata bulk load and
  handleTopicChange),
* the population / single-flight control flow of MetadataCache
  (ensurePopulated, populate, loadTopicMetadata, loadTopicsFromCacheFile),

and proves or refutes the spec claims about them.

Modelling conventions:

* JavaScript Map objects are modelled as insertion-ordered association
  lists (List (String × α)); Map.set replaces the first matching entry in
  place (preserving insertion order) or appends, Map.delete removes the
  entry, and values() enumerates in insertion order, exactly as ES2015
  Maps behave.
* Asynchronous control flow is modelled by explicit outcome values: a
  promise settles either by resolving with a value or by rejecting.
* File-system and parser effects (fs.exists, JSON.parse, the project
  scan) are modelled by an environment record giving each effect's
  outcome; a parse or scan that throws is a none outcome.
* String.prototype.localeCompare performs host- and locale-dependent
  collation (ICU in the deployed host); it is modelled as an abstract
  comparator parameter required only to be consistent (total and
  transitive), the way the comparator contract of Array.prototype.sort
  demands.  The lexicographic code-point order the spec claims for the
  pick list is defined separately, from the spec's words, so the two can
  be compared.
-/

namespace DocFX

/-- Topic metadata record (docfx.ts, interface TopicMetadata).  The
detailedType field carries the numeric value of the TopicType enum. -/
structure TopicMetadata where
  uid : String
  type : String
  sourceFile : String
  name : Option String := none
  title : Option String := none
  memberType : Option String := none
  detailedType : Option Nat := none
deriving DecidableEq, Repr

/-! Values of the TS enum TopicType (docfx.ts lines 36-57), exactly as the
source assigns them.  Note that the source assigns the value 6 to both
PowerShellCmdlet and Other.  The enum member named Type is rendered here
as TypeTopic because Type is a Lean keyword. -/

namespace TopicType

def Conceptual : Nat := 1

def Namespace : Nat := 2

def TypeTopic : Nat := 3

def Property : Nat := 4

def Method : Nat := 5

def PowerShellCmdlet : Nat := 6

def Other : Nat := 6

end TopicType

/-- Categorization table (docfx.ts, function categorizeTopic, lines
357-399): derive a topic's detailed type from its coarse type string and
its memberType. -/
def categorizeTopic (metadata : TopicMetadata) : Nat :=
  match metadata.type with
  | "Conceptual" => TopicType.Conceptual
  | "Reference.Managed" =>
    match metadata.memberType with
    | some "Namespace" => TopicType.Namespace
    | some "Class" | some "Struct" | some "Interface" | some "Delegate" =>
      TopicType.TypeTopic
    | some "Property" => TopicType.Property
    | some "Method" | some "Constructor" => TopicType.Method
    | _ => TopicType.Other
  | "Reference.PowerShell" =>
    match metadata.memberType with
    | some "Cmdlet" => TopicType.PowerShellCmdlet
    | _ => TopicType.Other
  | _ => TopicType.Other

/-! String utilities.  The TS code works on strings; we model the string
operations it uses (startsWith, endsWith, split, first-occurrence
replace, and code-point comparison) as executable functions on the
underlying character lists so that concrete instances evaluate inside
the kernel. -/

/-- Boolean test that the first character list is a prefix of the second. -/
def isPrefixOfCL : List Char → List Char → Bool
  | [], _ => true
  | _ :: _, [] => false
  | a :: as, b :: bs => a = b && isPrefixOfCL as bs

/-- Model of String.prototype.startsWith. -/
def strStartsWith (s pre : String) : Bool :=
  isPrefixOfCL pre.data s.data

/-- Model of String.prototype.endsWith. -/
def strEndsWith (s suffix : String) : Bool :=
  isPrefixOfCL suffix.data.reverse s.data.reverse

/-- Lexicographic code-point comparison of character lists (at most). -/
def charsLe : List Char → List Char → Bool
  | [], _ => true
  | _ :: _, [] => false
  | a :: as, b :: bs =>
    if a.toNat < b.toNat then true
    else if a.toNat = b.toNat then charsLe as bs
    else false

/-- Lexicographic code-point comparison of strings.  Written from the
spec's words: this is the ascending lexicographic UID order the spec
claims for the returned pick list, stated as its own definition so it
can be compared with the program's localeCompare-based sort (whose
collation is host-dependent and modelled abstractly). -/
def strLe (a b : String) : Bool := charsLe a.data b.data

/-- Split a character list on a separator character (model of
String.prototype.split with a one-character separator). -/
def splitOnChar (sep : Char) : List Char → List (List Char)
  | [] => [[]]
  | c :: cs =>
    match splitOnChar sep cs with
    | [] => [[c]]
    | g :: gs => if c = sep then [] :: g :: gs else (c :: g) :: gs

/-- Replace the first occurrence of pat in s by rep (model of
String.prototype.replace with a string search value, which replaces only
the first occurrence, searching left to right). -/
def replaceFirstCL (pat rep : List Char) : List Char → List Char
  | [] => []
  | c :: cs =>
    if isPrefixOfCL pat (c :: cs) then rep ++ (c :: cs).drop pat.length
    else c :: replaceFirstCL pat rep cs

/-- Replace the first occurrence of pat in s by rep, on strings. -/
def replaceFirst (s pat rep : String) : String :=
  ⟨replaceFirstCL pat.data rep.data s.data⟩

/-! Extraction dispatch (docfx.ts getTopics).  The markdown front-matter
parser and the managed-reference YAML parser read file contents; they
are modelled by an environment assigning each path its parse result,
while the dispatch structure of getTopics is translated exactly. -/

/-- Parse results for each content file: the outcome of
parseMarkdownTopicMetadata (null when there is no front matter or no
uid) and of parseManagedReferenceYaml (empty when the YamlMime marker is
missing or no item has a uid). -/
structure ContentParsers where
  markdownTopic : String → Option TopicMetadata
  managedRefTopics : String → List TopicMetadata

/-- Model of getTopics (docfx.ts lines 111-125).  The TS function has no
else branch after the .md / .yml tests: a path matching none of the
tested suffixes falls off the end of the function and the promise
resolves to undefined, modelled here as none. -/
def getTopics (ps : ContentParsers) (contentFile : String) :
    Option (List TopicMetadata) :=
  if strEndsWith contentFile ".json" || strEndsWith contentFile "toc.yml" then
    some []
  else if strEndsWith contentFile ".md" then
    match ps.markdownTopic contentFile with
    | none => some []
    | some t => some [t]
  else if strEndsWith contentFile ".yml" then
    some (ps.managedRefTopics contentFile)
  else
    none

/-! Glob matcher (fs-utils.ts createMatchers, docfx.ts FileMatcher).
Minimatch is an external library; the fragment of its pattern language
the project uses (literal segments, the single-segment wildcard, and the
any-depth double-star segment) is modelled directly. -/

/-- Match one glob segment against one path segment: literal characters
must agree and a star matches any (possibly empty) run of characters,
expressed as matching the rest of the pattern against some suffix. -/
def matchChars : List Char → List Char → Bool
  | [], cs => cs.isEmpty
  | '*' :: ps, cs => cs.tails.any fun cs2 => matchChars ps cs2
  | p :: ps, cs =>
    match cs with
    | [] => false
    | c :: cs2 => p = c && matchChars ps cs2

/-- Match a segment-list glob pattern against a segment-list path: a
double-star segment matches any number (including zero) of path
segments, any other segment matches exactly one path segment. -/
def matchSegs : List (List Char) → List (List Char) → Bool
  | [], ss => ss.isEmpty
  | p :: ps, ss =>
    if p = ['*', '*'] then ss.tails.any fun ss2 => matchSegs ps ss2
    else
      match ss with
      | [] => false
      | s :: ss2 => matchChars p s && matchSegs ps ss2

/-- Match a glob pattern string against a path string (the model of one
Minimatch matcher's match method). -/
def globMatch (pattern path : String) : Bool :=
  matchSegs (splitOnChar '/' pattern.data) (splitOnChar '/' path.data)

/-- Test from createMatchers (fs-utils.ts lines 19-27): does any
slash-separated segment of the pattern start with a double-star followed
directly by a dot? -/
def hasUnsupportedGlobStar (pattern : String) : Bool :=
  (splitOnChar '/' pattern.data).any fun seg =>
    isPrefixOfCL ['*', '*', '.'] seg

/-- Model of createMatchers (fs-utils.ts lines 15-45): each pattern whose
segments use the unsupported double-star-dot shorthand is expanded into
two patterns, one matching the base directory itself and one matching
any depth below it; other patterns are kept as they are. -/
def createMatchers (patterns : List String) : List String :=
  patterns.flatMap fun pattern =>
    if hasUnsupportedGlobStar pattern then
      [replaceFirst pattern "**." "*.", replaceFirst pattern "**." "**/*."]
    else
      [pattern]

/-- Model of path.relative for the common case used by the matcher: a
path below the base directory is taken relative to it; any other path is
left unchanged. -/
def pathRelative (baseDir filePath : String) : String :=
  let pre := baseDir.data ++ ['/']
  if isPrefixOfCL pre filePath.data then ⟨filePath.data.drop pre.length⟩
  else filePath

/-- The FileMatcher state (docfx.ts lines 213-234): matchers prepared once
from the include and exclude pattern lists. -/
structure FileMatcher where
  baseDir : String
  includeMatchers : List String
  excludeMatchers : List String

/-- The FileMatcher constructor (docfx.ts lines 230-234). -/
def FileMatcher.create (baseDir : String)
    (includePatterns excludePatterns : List String) : FileMatcher :=
  { baseDir := baseDir
    includeMatchers := createMatchers includePatterns
    excludeMatchers := createMatchers excludePatterns }

/-- Model of FileMatcher.shouldIncludeFile (docfx.ts lines 241-256): the
path is taken relative to the base directory; if any exclude matcher
matches the method returns false, otherwise it returns whether some
include matcher matches. -/
def FileMatcher.shouldIncludeFile (m : FileMatcher) (filePath : String) :
    Bool :=
  let rel := pathRelative m.baseDir filePath
  if m.excludeMatchers.any (fun pat => globMatch pat rel) then false
  else m.includeMatchers.any (fun pat => globMatch pat rel)

end DocFX

namespace DocFX

/-! The topic index.  MetadataCache (metadata-cache.ts) keeps two
JavaScript Maps: topics (uid to TopicMetadata) and topicsByContentFile
(content file to array of TopicMetadata).  A JavaScript Map is modelled
as an insertion-ordered association list. -/

/-- Model of Map.prototype.get. -/
def mapGet {α : Type} : List (String × α) → String → Option α
  | [], _ => none
  | p :: m, k => if p.1 = k then some p.2 else mapGet m k

/-- Model of Map.prototype.set: replace the value of an existing key in
place (preserving insertion order), or append a new entry. -/
def mapSet {α : Type} : List (String × α) → String → α → List (String × α)
  | [], k, v => [(k, v)]
  | p :: m, k, v => if p.1 = k then (k, v) :: m else p :: mapSet m k v

/-- Model of Map.prototype.delete. -/
def mapDelete {α : Type} : List (String × α) → String → List (String × α)
  | [], _ => []
  | p :: m, k => if p.1 = k then mapDelete m k else p :: mapDelete m k

/-- The two co-maintained maps of MetadataCache while populated. -/
structure CacheState where
  topics : List (String × TopicMetadata)
  topicsByContentFile : List (String × List TopicMetadata)
deriving DecidableEq, Repr

/-- The freshly created index (topics and topicsByContentFile both set to
new empty Maps). -/
def emptyCache : CacheState := { topics := [], topicsByContentFile := [] }

/-- Model of handleTopicChange for Added and Changed notifications
(metadata-cache.ts lines 345-366): delete from the uid map every topic
previously recorded for the content file, replace the byContentFile
entry with the new topic list, and insert every new topic keyed by its
uid. -/
def upsertFile (s : CacheState) (contentFile : String)
    (newTopics : List TopicMetadata) : CacheState :=
  let oldTopics := (mapGet s.topicsByContentFile contentFile).getD []
  let afterDelete := oldTopics.foldl (fun m t => mapDelete m t.uid) s.topics
  { topics := newTopics.foldl (fun m t => mapSet m t.uid t) afterDelete
    topicsByContentFile := mapSet s.topicsByContentFile contentFile newTopics }

/-- Model of handleTopicChange for Removed notifications (metadata-cache.ts
lines 368-384): when the content file has an entry, delete each of its
topics from the uid map and drop the entry; otherwise do nothing. -/
def removeFile (s : CacheState) (contentFile : String) : CacheState :=
  match mapGet s.topicsByContentFile contentFile with
  | none => s
  | some existingTopics =>
    { topics := existingTopics.foldl (fun m t => mapDelete m t.uid) s.topics
      topicsByContentFile := mapDelete s.topicsByContentFile contentFile }

/-- Model of path.isAbsolute for POSIX paths. -/
def isAbsolutePath (p : String) : Bool := strStartsWith p "/"

/-- Normalization applied on ingest (metadata-cache.ts lines 278-280): an
absolute sourceFile is rewritten relative to the project directory. -/
def normalizeTopic (projectDir : String) (t : TopicMetadata) :
    TopicMetadata :=
  if isAbsolutePath t.sourceFile then
    { t with sourceFile := pathRelative projectDir t.sourceFile }
  else t

/-- One iteration of the bulk-load forEach in loadTopicMetadata
(metadata-cache.ts lines 277-290): normalize the topic's sourceFile, set
it in the uid map, and push it onto the (possibly new) array for its
source file. -/
def bulkLoadStep (projectDir : String) (s : CacheState)
    (t0 : TopicMetadata) : CacheState :=
  let t := normalizeTopic projectDir t0
  { topics := mapSet s.topics t.uid t
    topicsByContentFile :=
      match mapGet s.topicsByContentFile t.sourceFile with
      | none => mapSet s.topicsByContentFile t.sourceFile [t]
      | some l => mapSet s.topicsByContentFile t.sourceFile (l ++ [t]) }

/-- The operations that mutate the index: a bulk-load insertion performed
during population, and the two change-notification operations. -/
inductive Op where
  | load (projectDir : String) (t : TopicMetadata)
  | upsert (contentFile : String) (ts : List TopicMetadata)
  | remove (contentFile : String)
deriving DecidableEq, Repr

/-- Apply one index operation. -/
def applyOp (s : CacheState) : Op → CacheState
  | .load projectDir t => bulkLoadStep projectDir s t
  | .upsert contentFile ts => upsertFile s contentFile ts
  | .remove contentFile => removeFile s contentFile

/-- The state reached by running a sequence of index operations from the
freshly created index. -/
def runOps (ops : List Op) : CacheState := ops.foldl applyOp emptyCache

/-- The index-consistency invariant exactly as the spec states it: every
uid in byUid appears in the byContentFile entry for its topic's
sourceFile, and every topic recorded under a content file key has a
byUid entry whose sourceFile is that key. -/
def Consistent (s : CacheState) : Prop :=
  (∀ u t, mapGet s.topics u = some t →
      ∃ l, mapGet s.topicsByContentFile t.sourceFile = some l ∧
        u ∈ l.map (fun t2 => t2.uid)) ∧
  (∀ f l, mapGet s.topicsByContentFile f = some l →
      ∀ t ∈ l, ∃ t2, mapGet s.topics t.uid = some t2 ∧ t2.sourceFile = f)

/-- Well-formedness of one operation against the current state: upserted
topics carry the sourceFile under which they are recorded, and no
inserted uid is currently owned by a different content file (the data
model's assumption that uids are unique across the project). -/
def GoodOp (s : CacheState) : Op → Prop
  | .load projectDir t0 =>
    ∀ t1, mapGet s.topics (normalizeTopic projectDir t0).uid = some t1 →
      t1.sourceFile = (normalizeTopic projectDir t0).sourceFile
  | .upsert contentFile ts =>
    ∀ t ∈ ts, t.sourceFile = contentFile ∧
      ∀ t1, mapGet s.topics t.uid = some t1 → t1.sourceFile = contentFile
  | .remove _ => True

/-- Well-formedness of a whole operation sequence, checked step by step
from a starting state. -/
def GoodTrace : CacheState → List Op → Prop
  | _, [] => True
  | s, op :: ops => GoodOp s op ∧ GoodTrace (applyOp s op) ops

/-- The last topic with the given uid in a list, if any (the survivor of
last-write-wins insertion). -/
def lastUid (u : String) : List TopicMetadata → Option TopicMetadata
  | [] => none
  | t :: ts =>
    match lastUid u ts with
    | some r => some r
    | none => if t.uid = u then some t else none

/-- The topics written by one operation, in insertion order. -/
def opWrites : Op → List TopicMetadata
  | .load projectDir t => [normalizeTopic projectDir t]
  | .upsert _ ts => ts
  | .remove _ => []

/-- The most recent topic written for a uid over a whole operation
sequence. -/
def lastWrite (ops : List Op) (u : String) : Option TopicMetadata :=
  lastUid u (ops.flatMap opWrites)

/-- The keys of an association-list map. -/
def mapKeys {α : Type} (m : List (String × α)) : List String :=
  m.map (fun p => p.1)

end DocFX

namespace DocFX


/-! Lemmas characterizing lookups after the map operations and the folds
used by the index operations. -/

theorem mapGet_mapSet {α : Type} (m : List (String × α)) (k k' : String)
    (v : α) :
    mapGet (mapSet m k v) k' = if k' = k then some v else mapGet m k' := by
  induction m with
  | nil =>
    by_cases h : k' = k
    · subst h; simp [mapSet, mapGet]
    · simp [mapSet, mapGet, h, Ne.symm h]
  | cons p m ih =>
    by_cases h1 : p.1 = k
    · by_cases h2 : k' = k
      · subst h2; simp [mapSet, mapGet, h1]
      · simp [mapSet, mapGet, h1, h2, Ne.symm h2]
    · by_cases h2 : k' = k
      · subst h2; simp [mapSet, mapGet, h1, ih]
      · simp [mapSet, mapGet, h1, h2, ih]

theorem mapGet_mapDelete {α : Type} (m : List (String × α))
    (k k' : String) :
    mapGet (mapDelete m k) k' = if k' = k then none else mapGet m k' := by
  induction m with
  | nil => simp [mapDelete, mapGet]
  | cons p m ih =>
    by_cases h1 : p.1 = k
    · by_cases h2 : k' = k
      · subst h2; simp [mapDelete, mapGet, h1, ih]
      · simp [mapDelete, mapGet, h1, h2, ih, Ne.symm h2]
    · by_cases h2 : k' = k
      · subst h2; simp [mapDelete, mapGet, h1, ih]
      · simp [mapDelete, mapGet, h1, h2, ih]

theorem foldl_delete_get (l : List TopicMetadata)
    (m : List (String × TopicMetadata)) (u : String) :
    mapGet (l.foldl (fun acc t => mapDelete acc t.uid) m) u =
      if u ∈ l.map (fun t => t.uid) then none else mapGet m u := by
  induction l generalizing m with
  | nil => simp
  | cons t l ih =>
    simp only [List.foldl_cons, ih, mapGet_mapDelete, List.map_cons,
      List.mem_cons]
    by_cases h1 : u ∈ l.map (fun t => t.uid) <;>
      by_cases h2 : u = t.uid <;> simp [h1, h2]

theorem foldl_set_get (l : List TopicMetadata)
    (m : List (String × TopicMetadata)) (u : String) :
    mapGet (l.foldl (fun acc t => mapSet acc t.uid t) m) u =
      match lastUid u l with
      | some r => some r
      | none => mapGet m u := by
  induction l generalizing m with
  | nil => simp [lastUid]
  | cons t l ih =>
    simp only [List.foldl_cons, ih, mapGet_mapSet, lastUid]
    cases lastUid u l with
    | some r => simp
    | none =>
      by_cases h : u = t.uid
      · simp [h]
      · simp [h, Ne.symm h]

theorem lastUid_mem {u : String} {l : List TopicMetadata}
    {r : TopicMetadata} (h : lastUid u l = some r) : r ∈ l ∧ r.uid = u := by
  induction l with
  | nil => simp [lastUid] at h
  | cons t ts ih =>
    rw [lastUid] at h
    cases h2 : lastUid u ts with
    | some r2 =>
      rw [h2] at h
      obtain rfl : r2 = r := by simpa using h
      obtain ⟨hm, hu⟩ := ih h2
      exact ⟨List.mem_cons_of_mem _ hm, hu⟩
    | none =>
      rw [h2] at h
      by_cases h3 : t.uid = u
      · simp only [h3, if_pos] at h
        refine ⟨?_, ?_⟩
        · simp [← Option.some_inj.mp h]
        · rw [← Option.some_inj.mp h]; exact h3
      · simp [h3] at h

theorem lastUid_of_mem {u : String} {l : List TopicMetadata}
    {t : TopicMetadata} (hm : t ∈ l) (hu : t.uid = u) :
    ∃ r, lastUid u l = some r := by
  induction l with
  | nil => simp at hm
  | cons t2 ts ih =>
    rw [lastUid]
    cases h2 : lastUid u ts with
    | some r2 => exact ⟨r2, rfl⟩
    | none =>
      rcases List.mem_cons.mp hm with h3 | h3
      · subst h3; simp [hu]
      · obtain ⟨r, hr⟩ := ih h3
        rw [h2] at hr
        cases hr

theorem lastUid_append (u : String) (a b : List TopicMetadata) :
    lastUid u (a ++ b) =
      match lastUid u b with
      | some r => some r
      | none => lastUid u a := by
  induction a with
  | nil => cases h : lastUid u b <;> simp [lastUid, h]
  | cons t a ih =>
    simp only [List.cons_append, lastUid, List.append_eq]
    rw [ih]
    cases h : lastUid u b <;> simp

end DocFX

namespace DocFX

theorem upsertFile_topics_get (s : CacheState) (f : String)
    (ts : List TopicMetadata) (u : String) :
    mapGet (upsertFile s f ts).topics u =
      match lastUid u ts with
      | some r => some r
      | none =>
        if u ∈ ((mapGet s.topicsByContentFile f).getD []).map
            (fun t => t.uid) then none
        else mapGet s.topics u := by
  simp only [upsertFile, foldl_set_get, foldl_delete_get]

theorem upsertFile_byFile (s : CacheState) (f : String)
    (ts : List TopicMetadata) :
    (upsertFile s f ts).topicsByContentFile =
      mapSet s.topicsByContentFile f ts := rfl

theorem consistent_empty : Consistent emptyCache :=
  ⟨fun u t h => by simp [emptyCache, mapGet] at h,
   fun f l h => by simp [emptyCache, mapGet] at h⟩

theorem consistent_upsert (s : CacheState) (f : String)
    (ts : List TopicMetadata) (hs : Consistent s)
    (hgood : ∀ t ∈ ts, t.sourceFile = f ∧
      ∀ t1, mapGet s.topics t.uid = some t1 → t1.sourceFile = f) :
    Consistent (upsertFile s f ts) := by
  obtain ⟨h1, h2⟩ := hs
  constructor
  · intro u t hget
    rw [upsertFile_topics_get] at hget
    cases hl : lastUid u ts with
    | some r =>
      rw [hl] at hget
      have hrt : r = t := by simpa using hget
      subst hrt
      obtain ⟨hmem, huid⟩ := lastUid_mem hl
      obtain ⟨hsf, -⟩ := hgood r hmem
      refine ⟨ts, ?_, ?_⟩
      · rw [upsertFile_byFile, mapGet_mapSet, hsf, if_pos rfl]
      · rw [← huid]; exact List.mem_map_of_mem _ hmem
    | none =>
      rw [hl] at hget
      by_cases hmem : u ∈ ((mapGet s.topicsByContentFile f).getD []).map
          (fun t2 => t2.uid)
      · rw [if_pos hmem] at hget; cases hget
      · rw [if_neg hmem] at hget
        obtain ⟨l, hgl, hul⟩ := h1 u t hget
        have hne : t.sourceFile ≠ f := by
          intro heq
          apply hmem
          rw [heq] at hgl
          rw [hgl]
          exact hul
        refine ⟨l, ?_, hul⟩
        rw [upsertFile_byFile, mapGet_mapSet, if_neg hne]
        exact hgl
  · intro f' l' hget
    rw [upsertFile_byFile, mapGet_mapSet] at hget
    by_cases hf : f' = f
    · rw [if_pos hf] at hget
      obtain rfl : ts = l' := by simpa using hget
      intro t hmem
      obtain ⟨hsf, -⟩ := hgood t hmem
      obtain ⟨r, hr⟩ := lastUid_of_mem hmem rfl
      obtain ⟨hrmem, hruid⟩ := lastUid_mem hr
      obtain ⟨hrsf, -⟩ := hgood r hrmem
      refine ⟨r, ?_, by rw [hrsf, hf]⟩
      rw [upsertFile_topics_get, hr]
    · rw [if_neg hf] at hget
      intro t hmem
      obtain ⟨t2, hget2, hsf2⟩ := h2 f' l' hget t hmem
      have hlast : lastUid t.uid ts = none := by
        cases hl : lastUid t.uid ts with
        | none => rfl
        | some r =>
          obtain ⟨hrmem, hruid⟩ := lastUid_mem hl
          obtain ⟨-, hfresh⟩ := hgood r hrmem
          rw [hruid] at hfresh
          exact absurd (hsf2.symm.trans (hfresh t2 hget2)) hf
      have hold : t.uid ∉ ((mapGet s.topicsByContentFile f).getD []).map
          (fun t3 => t3.uid) := by
        intro hin
        cases hOld : mapGet s.topicsByContentFile f with
        | none => rw [hOld] at hin; simp at hin
        | some l0 =>
          rw [hOld] at hin
          simp only [Option.getD_some, List.mem_map] at hin
          obtain ⟨t3, ht3mem, ht3uid⟩ := hin
          obtain ⟨t4, hg4, hs4⟩ := h2 f l0 hOld t3 ht3mem
          rw [ht3uid, hget2] at hg4
          obtain rfl : t2 = t4 := by simpa using hg4
          exact hf (hsf2.symm.trans hs4)
      refine ⟨t2, ?_, hsf2⟩
      rw [upsertFile_topics_get, hlast, if_neg hold]
      exact hget2

theorem consistent_remove (s : CacheState) (f : String)
    (hs : Consistent s) : Consistent (removeFile s f) := by
  obtain ⟨h1, h2⟩ := hs
  cases hOld : mapGet s.topicsByContentFile f with
  | none =>
    simp only [removeFile, hOld]
    exact ⟨h1, h2⟩
  | some l0 =>
    constructor
    · intro u t hget
      simp only [removeFile, hOld, foldl_delete_get] at hget
      by_cases hin : u ∈ l0.map (fun t2 => t2.uid)
      · rw [if_pos hin] at hget; cases hget
      · rw [if_neg hin] at hget
        obtain ⟨l, hgl, hul⟩ := h1 u t hget
        have hne : t.sourceFile ≠ f := by
          intro heq
          apply hin
          rw [heq, hOld] at hgl
          obtain rfl : l0 = l := by simpa using hgl
          exact hul
        refine ⟨l, ?_, hul⟩
        simp only [removeFile, hOld, mapGet_mapDelete, if_neg hne]
        exact hgl
    · intro f' l' hget
      simp only [removeFile, hOld, mapGet_mapDelete] at hget
      by_cases hf : f' = f
      · rw [if_pos hf] at hget; cases hget
      · rw [if_neg hf] at hget
        intro t hmem
        obtain ⟨t2, hg2, hs2⟩ := h2 f' l' hget t hmem
        have hnin : t.uid ∉ l0.map (fun t3 => t3.uid) := by
          intro hin
          simp only [List.mem_map] at hin
          obtain ⟨t3, ht3mem, ht3uid⟩ := hin
          obtain ⟨t4, hg4, hs4⟩ := h2 f l0 hOld t3 ht3mem
          rw [ht3uid, hg2] at hg4
          obtain rfl : t2 = t4 := by simpa using hg4
          exact hf (hs2.symm.trans hs4)
        refine ⟨t2, ?_, hs2⟩
        simp only [removeFile, hOld, foldl_delete_get, if_neg hnin]
        exact hg2

theorem consistent_load (s : CacheState) (projectDir : String)
    (t0 : TopicMetadata) (hs : Consistent s)
    (hgood : ∀ t1, mapGet s.topics (normalizeTopic projectDir t0).uid =
      some t1 → t1.sourceFile = (normalizeTopic projectDir t0).sourceFile) :
    Consistent (bulkLoadStep projectDir s t0) := by
  obtain ⟨h1, h2⟩ := hs
  set t := normalizeTopic projectDir t0 with ht
  have hbt : (bulkLoadStep projectDir s t0).topics = mapSet s.topics t.uid t :=
    rfl
  constructor
  · intro u t2 hget
    rw [hbt, mapGet_mapSet] at hget
    by_cases hu : u = t.uid
    · rw [if_pos hu] at hget
      obtain rfl : t = t2 := by simpa using hget
      cases hOld : mapGet s.topicsByContentFile t.sourceFile with
      | none =>
        refine ⟨[t], ?_, by simp [hu]⟩
        simp only [bulkLoadStep, ← ht, hOld, mapGet_mapSet, if_pos rfl, if_true]
      | some l =>
        refine ⟨l ++ [t], ?_, by simp [hu]⟩
        simp only [bulkLoadStep, ← ht, hOld, mapGet_mapSet, if_pos rfl, if_true]
    · rw [if_neg hu] at hget
      obtain ⟨l, hgl, hul⟩ := h1 u t2 hget
      by_cases hsf : t2.sourceFile = t.sourceFile
      · rw [hsf] at hgl
        refine ⟨l ++ [t], ?_, by simp [hul]⟩
        rw [hsf]
        simp only [bulkLoadStep, ← ht, hgl, mapGet_mapSet, if_pos rfl, if_true]
      · refine ⟨l, ?_, hul⟩
        cases hOld : mapGet s.topicsByContentFile t.sourceFile with
        | none =>
          simp only [bulkLoadStep, ← ht, hOld, mapGet_mapSet, if_neg hsf]
          exact hgl
        | some l2 =>
          simp only [bulkLoadStep, ← ht, hOld, mapGet_mapSet, if_neg hsf]
          exact hgl
  · intro f' l' hget
    by_cases hf : f' = t.sourceFile
    · cases hOld : mapGet s.topicsByContentFile t.sourceFile with
      | none =>
        simp only [bulkLoadStep, ← ht, hOld, mapGet_mapSet] at hget
        rw [if_pos hf] at hget
        obtain rfl : [t] = l' := by simpa using hget
        intro t3 hmem
        obtain rfl : t3 = t := by simpa using hmem
        refine ⟨t, ?_, hf.symm⟩
        rw [hbt, mapGet_mapSet, if_pos rfl]
      | some l0 =>
        simp only [bulkLoadStep, ← ht, hOld, mapGet_mapSet] at hget
        rw [if_pos hf] at hget
        obtain rfl : l0 ++ [t] = l' := by simpa using hget
        intro t3 hmem
        rcases List.mem_append.mp hmem with hmem0 | hmemt
        · by_cases hu : t3.uid = t.uid
          · refine ⟨t, ?_, hf.symm⟩
            rw [hbt, mapGet_mapSet, if_pos hu]
          · obtain ⟨t4, hg4, hs4⟩ := h2 _ l0 hOld t3 hmem0
            refine ⟨t4, ?_, by rw [hs4, hf]⟩
            rw [hbt, mapGet_mapSet, if_neg hu]
            exact hg4
        · obtain rfl : t3 = t := by simpa using hmemt
          refine ⟨t, ?_, hf.symm⟩
          rw [hbt, mapGet_mapSet, if_pos rfl]
    · have hget2 : mapGet s.topicsByContentFile f' = some l' := by
        cases hOld : mapGet s.topicsByContentFile t.sourceFile with
        | none =>
          simp only [bulkLoadStep, ← ht, hOld, mapGet_mapSet] at hget
          rw [if_neg hf] at hget
          exact hget
        | some l0 =>
          simp only [bulkLoadStep, ← ht, hOld, mapGet_mapSet] at hget
          rw [if_neg hf] at hget
          exact hget
      intro t3 hmem
      obtain ⟨t4, hg4, hs4⟩ := h2 f' l' hget2 t3 hmem
      by_cases hu : t3.uid = t.uid
      · rw [hu] at hg4
        exact absurd (hs4.symm.trans (hgood t4 hg4)) hf
      · refine ⟨t4, ?_, hs4⟩
        rw [hbt, mapGet_mapSet, if_neg hu]
        exact hg4

theorem consistent_applyOp (s : CacheState) (op : Op) (hs : Consistent s)
    (hgood : GoodOp s op) : Consistent (applyOp s op) := by
  cases op with
  | load projectDir t => exact consistent_load s projectDir t hs hgood
  | upsert f ts => exact consistent_upsert s f ts hs hgood
  | remove f => exact consistent_remove s f hs

theorem consistent_trace (ops : List Op) (s : CacheState) (hs : Consistent s)
    (hgood : GoodTrace s ops) : Consistent (ops.foldl applyOp s) := by
  induction ops generalizing s with
  | nil => exact hs
  | cons op ops ih =>
    obtain ⟨hg1, hg2⟩ := hgood
    exact ih (applyOp s op) (consistent_applyOp s op hs hg1) hg2

end DocFX

namespace DocFX

/-! Key uniqueness and last-writer-wins lemmas. -/

theorem mapKeys_mapSet {α : Type} (m : List (String × α)) (k : String)
    (v : α) :
    mapKeys (mapSet m k v) =
      if k ∈ mapKeys m then mapKeys m else mapKeys m ++ [k] := by
  induction m with
  | nil => simp [mapSet, mapKeys]
  | cons p m ih =>
    by_cases h : p.1 = k
    · simp [mapSet, mapKeys, h]
    · have hps : mapSet (p :: m) k v = p :: mapSet m k v := by
        simp [mapSet, h]
      have hk : mapKeys (p :: mapSet m k v) = p.1 :: mapKeys (mapSet m k v) :=
        rfl
      have hk2 : mapKeys (p :: m) = p.1 :: mapKeys m := rfl
      rw [hps, hk, hk2, ih]
      have h3 : ¬k = p.1 := fun hh => h hh.symm
      by_cases h2 : k ∈ mapKeys m <;> simp [h2, h3, List.mem_cons]

theorem mem_mapKeys_mapDelete {α : Type} {m : List (String × α)}
    {k x : String} (h : x ∈ mapKeys (mapDelete m k)) : x ∈ mapKeys m := by
  induction m with
  | nil => simp [mapDelete, mapKeys] at h
  | cons p m ih =>
    by_cases hp : p.1 = k
    · simp only [mapDelete, if_pos hp] at h
      simp only [mapKeys, List.map_cons, List.mem_cons]
      exact Or.inr (ih h)
    · simp only [mapDelete, if_neg hp, mapKeys, List.map_cons,
        List.mem_cons] at h ⊢
      rcases h with h | h
      · exact Or.inl h
      · exact Or.inr (ih h)

theorem nodup_mapKeys_mapSet {α : Type} (m : List (String × α))
    (k : String) (v : α) (h : (mapKeys m).Nodup) :
    (mapKeys (mapSet m k v)).Nodup := by
  rw [mapKeys_mapSet]
  by_cases h2 : k ∈ mapKeys m
  · simpa [h2] using h
  · simp only [h2, if_false]
    simp [List.nodup_append, h, h2]

theorem nodup_mapKeys_mapDelete {α : Type} (m : List (String × α))
    (k : String) (h : (mapKeys m).Nodup) :
    (mapKeys (mapDelete m k)).Nodup := by
  induction m with
  | nil => simp [mapDelete, mapKeys]
  | cons p m ih =>
    simp only [mapKeys, List.map_cons, List.nodup_cons] at h
    obtain ⟨h1, h2⟩ := h
    by_cases hp : p.1 = k
    · simp only [mapDelete, if_pos hp]
      exact ih h2
    · simp only [mapDelete, if_neg hp, mapKeys, List.map_cons,
        List.nodup_cons]
      exact ⟨fun hmem => h1 (mem_mapKeys_mapDelete hmem), ih h2⟩

theorem nodup_foldl_delete (l : List TopicMetadata)
    (m : List (String × TopicMetadata)) (h : (mapKeys m).Nodup) :
    (mapKeys (l.foldl (fun acc t => mapDelete acc t.uid) m)).Nodup := by
  induction l generalizing m with
  | nil => exact h
  | cons t l ih => exact ih _ (nodup_mapKeys_mapDelete _ _ h)

theorem nodup_foldl_set (l : List TopicMetadata)
    (m : List (String × TopicMetadata)) (h : (mapKeys m).Nodup) :
    (mapKeys (l.foldl (fun acc t => mapSet acc t.uid t) m)).Nodup := by
  induction l generalizing m with
  | nil => exact h
  | cons t l ih => exact ih _ (nodup_mapKeys_mapSet _ _ _ h)

theorem nodup_topics_applyOp (s : CacheState) (op : Op)
    (h : (mapKeys s.topics).Nodup) :
    (mapKeys (applyOp s op).topics).Nodup := by
  cases op with
  | load projectDir t => exact nodup_mapKeys_mapSet _ _ _ h
  | upsert f ts => exact nodup_foldl_set _ _ (nodup_foldl_delete _ _ h)
  | remove f =>
    cases hOld : mapGet s.topicsByContentFile f with
    | none => simpa [applyOp, removeFile, hOld] using h
    | some l0 =>
      simp only [applyOp, removeFile, hOld]
      exact nodup_foldl_delete _ _ h

theorem nodup_topics_runOps (ops : List Op) :
    (mapKeys (runOps ops).topics).Nodup := by
  suffices H : ∀ s : CacheState, (mapKeys s.topics).Nodup →
      (mapKeys ((ops.foldl applyOp s)).topics).Nodup from
    H emptyCache (by simp [emptyCache, mapKeys])
  induction ops with
  | nil => exact fun s hs => hs
  | cons op ops ih =>
    intro s hs
    rw [List.foldl_cons]
    exact ih _ (nodup_topics_applyOp s op hs)

theorem lastWrite_cons (op : Op) (ops : List Op) (u : String) :
    lastWrite (op :: ops) u =
      match lastWrite ops u with
      | some r => some r
      | none => lastUid u (opWrites op) := by
  unfold lastWrite
  rw [List.flatMap_cons, lastUid_append]

theorem applyOp_topics_get (s : CacheState) (op : Op) (u : String)
    (t : TopicMetadata) (h : mapGet (applyOp s op).topics u = some t) :
    lastUid u (opWrites op) = some t ∨
      (lastUid u (opWrites op) = none ∧ mapGet s.topics u = some t) := by
  cases op with
  | load projectDir t0 =>
    have hb : (applyOp s (Op.load projectDir t0)).topics =
        mapSet s.topics (normalizeTopic projectDir t0).uid
          (normalizeTopic projectDir t0) := rfl
    rw [hb, mapGet_mapSet] at h
    by_cases hu : u = (normalizeTopic projectDir t0).uid
    · rw [if_pos hu] at h
      left
      simp only [opWrites, lastUid]
      rw [if_pos hu.symm]
      exact h
    · rw [if_neg hu] at h
      right
      refine ⟨?_, h⟩
      have hne : ¬(normalizeTopic projectDir t0).uid = u := fun hh =>
        hu hh.symm
      simp [opWrites, lastUid, hne]
  | upsert f ts =>
    simp only [applyOp] at h
    rw [upsertFile_topics_get] at h
    simp only [opWrites]
    cases hl : lastUid u ts with
    | some r =>
      rw [hl] at h
      exact Or.inl h
    | none =>
      rw [hl] at h
      refine Or.inr ⟨rfl, ?_⟩
      by_cases hmem : u ∈ ((mapGet s.topicsByContentFile f).getD []).map
          (fun t2 => t2.uid)
      · rw [if_pos hmem] at h; cases h
      · rw [if_neg hmem] at h; exact h
  | remove f =>
    refine Or.inr ⟨rfl, ?_⟩
    cases hOld : mapGet s.topicsByContentFile f with
    | none => simpa [applyOp, removeFile, hOld] using h
    | some l0 =>
      simp only [applyOp, removeFile, hOld, foldl_delete_get] at h
      by_cases hin : u ∈ l0.map (fun t2 => t2.uid)
      · rw [if_pos hin] at h; cases h
      · rw [if_neg hin] at h; exact h

theorem lastWrite_runOps (ops : List Op) (u : String) (t : TopicMetadata)
    (h : mapGet (runOps ops).topics u = some t) : lastWrite ops u = some t := by
  suffices H : ∀ s : CacheState,
      mapGet ((ops.foldl applyOp s)).topics u = some t →
        lastWrite ops u = some t ∨
          (lastWrite ops u = none ∧ mapGet s.topics u = some t) by
    rcases H emptyCache h with h2 | ⟨h2, h3⟩
    · exact h2
    · simp [emptyCache, mapGet] at h3
  clear h
  induction ops with
  | nil => exact fun s hs => Or.inr ⟨rfl, hs⟩
  | cons op ops ih =>
    intro s hs
    rw [List.foldl_cons] at hs
    rcases ih (applyOp s op) hs with h2 | ⟨h2, h3⟩
    · left
      rw [lastWrite_cons, h2]
    · rcases applyOp_topics_get s op u t h3 with h4 | ⟨h4, h5⟩
      · left
        rw [lastWrite_cons, h2]
        exact h4
      · refine Or.inr ⟨?_, h5⟩
        rw [lastWrite_cons, h2]
        exact h4

end DocFX

namespace DocFX

/-! The query path: filtering and sorting of topics for completion items
(getUIDCompletionListItems, metadata-cache.ts lines 155-207) and
quick-pick items (getUIDQuickPickItems, lines 508-528).  Both sort the
topic values with the comparator topic1.uid.localeCompare(topic2.uid)
and then map each topic to a UI item; the UI item construction preserves
order and is out of scope, so the model returns the sorted topic list.
localeCompare is not part of this repository and its collation is host-
and locale-dependent (ICU collation in the deployed host), so the sort
is modelled parametrically in a string comparator; the only assumption
used about it is the consistency Array.prototype.sort requires of a
comparator (totality and transitivity of the induced at-most
relation). -/

/-- The values of a map in insertion order, as enumerated by
Map.prototype.values. -/
def mapValues {α : Type} (m : List (String × α)) : List α :=
  m.map (fun p => p.2)

/-- The at-most relation the spec's claimed ordering induces on topics:
ascending lexicographic code-point comparison of uids.  Written from the
spec's words, to be compared with the program's collation-parametric
sort. -/
def topicUidLe (a b : TopicMetadata) : Prop := strLe a.uid b.uid = true

instance : DecidableRel topicUidLe := fun a b =>
  inferInstanceAs (Decidable (strLe a.uid b.uid = true))

/-- The at-most relation on topics induced by a string comparator lcmp
standing for uid1.localeCompare(uid2) being at most zero. -/
def uidLeBy (lcmp : String → String → Bool) (a b : TopicMetadata) :
    Prop := lcmp a.uid b.uid = true

instance (lcmp : String → String → Bool) : DecidableRel (uidLeBy lcmp) :=
  fun a b => inferInstanceAs (Decidable (lcmp a.uid b.uid = true))

theorem charsLe_total (a b : List Char) :
    charsLe a b = true ∨ charsLe b a = true := by
  induction a generalizing b with
  | nil => left; simp [charsLe]
  | cons x as ih =>
    cases b with
    | nil => right; simp [charsLe]
    | cons y bs =>
      rcases Nat.lt_trichotomy x.toNat y.toNat with h | h | h
      · left; simp [charsLe, h]
      · rcases ih bs with h2 | h2
        · left; simp [charsLe, h, h2]
        · right; simp [charsLe, h.symm, h2]
      · right; simp [charsLe, h]

theorem charsLe_trans :
    ∀ a b c : List Char,
      charsLe a b = true → charsLe b c = true → charsLe a c = true := by
  intro a
  induction a with
  | nil => intro b c h1 h2; simp [charsLe]
  | cons x as ih =>
    intro b c h1 h2
    cases b with
    | nil => simp [charsLe] at h1
    | cons y bs =>
      cases c with
      | nil => simp [charsLe] at h2
      | cons z cs =>
        simp only [charsLe] at h1 h2 ⊢
        split_ifs at h1 h2 ⊢ <;>
          first
          | rfl
          | exact ih bs cs h1 h2
          | exact absurd h1 Bool.false_ne_true
          | exact absurd h2 Bool.false_ne_true
          | (exfalso; omega)

/-- Case folding of the basic Latin uppercase letters to lowercase, the
primary-strength identification a locale-aware collation makes. -/
def charFold (c : Char) : Nat :=
  if 65 ≤ c.toNat ∧ c.toNat ≤ 90 then c.toNat + 32 else c.toNat

/-- A concrete locale-aware collation of the kind the host's
localeCompare implements: letters compare case-insensitively first
(primary strength), with the raw code point as tiebreaker.  It is a
total order, hence a consistent comparator, and like ICU collation it
orders apple.Method before Zebra.Type -- the reverse of code-point
order. -/
def collateChars : List Char → List Char → Bool
  | [], _ => true
  | _ :: _, [] => false
  | a :: as, b :: bs =>
    if charFold a < charFold b then true
    else if charFold b < charFold a then false
    else if a.toNat < b.toNat then true
    else if b.toNat < a.toNat then false
    else collateChars as bs

/-- The string form of the concrete locale-aware collation. -/
def collateLe (a b : String) : Bool := collateChars a.data b.data

/-- The optional detailed-type filter applied before sorting
(metadata-cache.ts lines 156-161 and 512-517). -/
def filteredTopics (s : CacheState) (topicType : Option Nat) :
    List TopicMetadata :=
  match topicType with
  | some ty =>
    (mapValues s.topics).filter (fun m => m.detailedType == some ty)
  | none => mapValues s.topics

/-- The topic sequence underlying the returned UID items: the (optionally
filtered) topic values sorted with the uid comparator (metadata-cache.ts
lines 163-166 and 519-522), parametric in the string comparator lcmp
realizing the host's localeCompare.  The JavaScript sort is modelled by
a stable sort with respect to the same comparator. -/
def getUIDItemsWith (lcmp : String → String → Bool) (s : CacheState)
    (topicType : Option Nat) : List TopicMetadata :=
  List.insertionSort (uidLeBy lcmp) (filteredTopics s topicType)

/-! Persistence and reload.  persist (metadata-cache.ts lines 120-131)
writes JSON.stringify(Array.from(this.topics.values())); the snapshot is
modelled at the record level as the list of topic records in map-value
order, since JSON round-trips each flat record of strings and numbers
faithfully.  Reloading adopts the parsed snapshot list as the initial
topic set and bulk-loads it (lines 265-290). -/

/-- The snapshot contents written by persist. -/
def persistedSnapshot (s : CacheState) : List TopicMetadata :=
  mapValues s.topics

/-- The index built by the bulk-load forEach from a topic list. -/
def reloadFromSnapshot (projectDir : String)
    (snapshot : List TopicMetadata) : CacheState :=
  snapshot.foldl (bulkLoadStep projectDir) emptyCache

theorem mapSet_append_of_not_mem {α : Type} (m : List (String × α))
    (k : String) (v : α) (h : k ∉ mapKeys m) :
    mapSet m k v = m ++ [(k, v)] := by
  induction m with
  | nil => simp [mapSet]
  | cons p m ih =>
    simp only [mapKeys, List.map_cons, List.mem_cons] at h
    push_neg at h
    obtain ⟨h1, h2⟩ := h
    have hne : ¬p.1 = k := fun hh => h1 hh.symm
    simp only [mapSet, if_neg hne, List.cons_append]
    rw [ih (by simpa [mapKeys] using h2)]

theorem reload_topics (projectDir : String) :
    ∀ (l : List (String × TopicMetadata)) (acc : CacheState),
      (∀ p ∈ l, p.1 = p.2.uid ∧ isAbsolutePath p.2.sourceFile = false) →
      (∀ p ∈ l, p.1 ∉ mapKeys acc.topics) →
      (mapKeys l).Nodup →
      ((mapValues l).foldl (bulkLoadStep projectDir) acc).topics =
        acc.topics ++ l := by
  intro l
  induction l with
  | nil => intro acc _ _ _; simp [mapValues]
  | cons p l ih =>
    intro acc hwf hfresh hnd
    obtain ⟨hpu, hpa⟩ := hwf p (List.mem_cons_self _ _)
    have hmv : mapValues (p :: l) = p.2 :: mapValues l := rfl
    rw [hmv, List.foldl_cons]
    have hnorm : normalizeTopic projectDir p.2 = p.2 := by
      simp [normalizeTopic, hpa]
    have hstep : (bulkLoadStep projectDir acc p.2).topics =
        acc.topics ++ [(p.1, p.2)] := by
      have hb : (bulkLoadStep projectDir acc p.2).topics =
          mapSet acc.topics (normalizeTopic projectDir p.2).uid
            (normalizeTopic projectDir p.2) := rfl
      rw [hb, hnorm, ← hpu]
      exact mapSet_append_of_not_mem _ _ _
        (hfresh p (List.mem_cons_self _ _))
    have hnd2 : (p.1 :: mapKeys l).Nodup := hnd
    have hne : p.1 ∉ mapKeys l := (List.nodup_cons.mp hnd2).1
    have hndl : (mapKeys l).Nodup := (List.nodup_cons.mp hnd2).2
    have hfresh2 : ∀ q ∈ l,
        q.1 ∉ mapKeys (bulkLoadStep projectDir acc p.2).topics := by
      intro q hq
      rw [hstep]
      have hqa : q.1 ∉ mapKeys acc.topics :=
        hfresh q (List.mem_cons_of_mem _ hq)
      have hqp : q.1 ≠ p.1 := by
        intro hh
        exact hne (hh ▸ List.mem_map_of_mem (fun r => r.1) hq)
      simp only [mapKeys, List.map_append, List.mem_append, List.map_cons,
        List.map_nil, List.mem_singleton]
      push_neg
      exact ⟨by simpa [mapKeys] using hqa, hqp⟩
    rw [ih (bulkLoadStep projectDir acc p.2)
        (fun q hq => hwf q (List.mem_cons_of_mem _ hq)) hfresh2 hndl, hstep]
    simp

end DocFX

namespace DocFX

/-! The MetadataCache population control flow (metadata-cache.ts,
first-revision lines 216-335 and 397-400).  Promise settlement is
explicit: a promise either resolves with a value or rejects.  The
effectful steps are given by an environment: whether the snapshot file
exists, the outcome of JSON.parse on its contents (none models a parse
exception), and the outcome of the project scan (none models a scan
exception). -/

/-- The observable fields of MetadataCache: whether a DocFX project is
open (docfxProject not null), the two nullable topic maps, and whether
populatingPromise is currently set. -/
structure MetadataCache where
  docfxProjectOpen : Bool
  topics : Option (List (String × TopicMetadata))
  topicsByContentFile : Option (List (String × List TopicMetadata))
  populating : Bool
deriving DecidableEq, Repr

/-- Model of the isPopulated getter (metadata-cache.ts lines 35-37). -/
def isPopulated (c : MetadataCache) : Bool :=
  c.docfxProjectOpen && c.topics.isSome && c.topicsByContentFile.isSome

/-- Environment giving the outcome of each effect performed during one
population attempt. -/
structure PopulateEnv where
  snapshotExists : Bool
  snapshotParse : Option (List TopicMetadata)
  scanResult : Option (List TopicMetadata)
  projectDir : String

/-- Model of loadTopicsFromCacheFile (metadata-cache.ts lines 316-335):
resolves null when the cache file does not exist, resolves the parsed
topic list when JSON.parse succeeds, and rejects (outer none) when
JSON.parse throws on a corrupt file -- there is no catch in this
function, so the exception propagates to the caller. -/
def loadTopicsFromCacheFile (env : PopulateEnv) :
    Option (Option (List TopicMetadata)) :=
  if !env.snapshotExists then some none
  else
    match env.snapshotParse with
    | none => none
    | some parsed => some (some parsed)

/-- Model of loadTopicMetadata (metadata-cache.ts lines 256-307).  Inside
the try block the two maps are first set to new empty Maps; then the
snapshot is tried, falling back to the project scan only when the
snapshot file is absent; the collected topics are bulk-loaded; persist
is awaited (modelled as effect-free for the index) and true is
returned.  Any exception reaches the catch block, which logs, reports
and returns false -- leaving the empty maps in place. -/
def loadTopicMetadataBody (c : MetadataCache) (env : PopulateEnv) :
    Bool × MetadataCache :=
  let c1 : MetadataCache :=
    { c with topics := some [], topicsByContentFile := some [] }
  let topicList :=
    match loadTopicsFromCacheFile env with
    | none => none
    | some (some persisted) => some persisted
    | some none => env.scanResult
  match topicList with
  | none => (false, c1)
  | some topics =>
    let s := reloadFromSnapshot env.projectDir topics
    (true,
     { c1 with
        topics := some s.topics
        topicsByContentFile := some s.topicsByContentFile })

/-- Settlement of a population promise. -/
inductive PopulateOutcome where
  | resolved (b : Bool)
  | rejected
deriving DecidableEq, Repr

/-- Model of populate (metadata-cache.ts lines 239-249): ensureOpenProject
(lines 397-400) throws when no project is open, rejecting the returned
promise; when the topics map is already set it resolves true; otherwise
it resolves with the result of loadTopicMetadata. -/
def populate (c : MetadataCache) (env : PopulateEnv) :
    PopulateOutcome × MetadataCache :=
  if !c.docfxProjectOpen then (.rejected, c)
  else
    match c.topics with
    | some _ => (.resolved true, c)
    | none =>
      let r := loadTopicMetadataBody c env
      (.resolved r.1, r.2)

/-- What one caller of ensurePopulated observes: its promise resolves to
null, resolves to a boolean, or rejects. -/
inductive PromiseOutcome where
  | resolvesNull
  | resolvesBool (b : Bool)
  | rejects
deriving DecidableEq, Repr

/-- The initiating caller's view (metadata-cache.ts lines 223-227): it
awaits populatingPromise.then(() => this.populatingPromise = null).
When populate resolves, the then-callback runs and its result -- the
value of the assignment, null -- becomes the caller's resolution value;
when populate rejects, the then-callback is skipped and the rejection
propagates. -/
def initiatorView : PopulateOutcome → PromiseOutcome
  | .resolved _ => .resolvesNull
  | .rejected => .rejects

/-- A sharing caller's view (metadata-cache.ts lines 220-221): it awaits
the bare populatingPromise and therefore observes populate's own
settlement. -/
def sharerView : PopulateOutcome → PromiseOutcome
  | .resolved b => .resolvesBool b
  | .rejected => .rejects

/-- The role a caller of ensurePopulated takes when it reaches the method
body (lines 217-223). -/
inductive CallerRole where
  | immediateTrue
  | initiator
  | sharer
deriving DecidableEq, Repr

/-- One caller executing the synchronous prefix of ensurePopulated (lines
217-223): return true immediately when a project file is set and the
topics map is non-null; otherwise attach to an in-flight
populatingPromise when one is set; otherwise start populate and store
its promise.  The third component counts populate invocations. -/
def arriveOne (c : MetadataCache) : CallerRole × MetadataCache × Nat :=
  if c.docfxProjectOpen && c.topics.isSome then (.immediateTrue, c, 0)
  else if c.populating then (.sharer, c, 0)
  else (.initiator, { c with populating := true }, 1)

/-- The view each role's promise settles with, once the single populate
promise settles with outcome o. -/
def roleView (o : PopulateOutcome) : CallerRole → PromiseOutcome
  | .immediateTrue => .resolvesBool true
  | .initiator => initiatorView o
  | .sharer => sharerView o

/-- N concurrent ensurePopulated calls: each caller runs the synchronous
prefix of ensurePopulated in arrival order while the asynchronous
population work is pending (the single populate call suspends at its
first I/O await before mutating cache state), then the populate promise
settles and every caller's promise settles with its view of that
outcome.  The then-callback of the initiating caller clears
populatingPromise on resolution; a rejection skips it, leaving the
marker set.  Returns the callers' observed outcomes in arrival order,
the final cache state, and the number of populate invocations. -/
def ensurePopulatedConcurrent (c0 : MetadataCache) (env : PopulateEnv)
    (n : Nat) : List PromiseOutcome × MetadataCache × Nat :=
  let arr :=
    (List.range n).foldl
      (fun (acc : List CallerRole × MetadataCache × Nat) _ =>
        let r := arriveOne acc.2.1
        (acc.1 ++ [r.1], r.2.1, acc.2.2 + r.2.2))
      ([], c0, 0)
  let settled := populate arr.2.1 env
  let cFinal :=
    match settled.1 with
    | .resolved _ => { settled.2 with populating := false }
    | .rejected => settled.2
  (arr.1.map (roleView settled.1), cFinal, arr.2.2)

end DocFX

namespace DocFX

/-! Concrete fixtures used by the claim theorems. -/

def c1TopicA : TopicMetadata :=
  { uid := "T.Alpha", type := "Conceptual", sourceFile := "a.md" }

def c1TopicB : TopicMetadata :=
  { uid := "T.Alpha", type := "Conceptual", sourceFile := "b.md" }

/-- The same uid upserted under two different content files. -/
def c1StealState : CacheState :=
  upsertFile (upsertFile emptyCache "a.md" [c1TopicA]) "b.md" [c1TopicB]

def c1MismatchTopic : TopicMetadata :=
  { uid := "T.Beta", type := "Conceptual", sourceFile := "g.md" }

/-- A topic upserted under a content file different from its sourceFile,
as the change adapter can deliver (it keys the change by the
project-relative path while the extracted topics carry the watcher's
absolute path). -/
def c1MismatchState : CacheState :=
  upsertFile emptyCache "f.md" [c1MismatchTopic]

def c1WitnessOps : List Op :=
  [Op.upsert "a.md" [c1TopicA], Op.load "proj" c1TopicA, Op.remove "a.md"]

/-- C1: the index-consistency invariant, as stated for every reachable
state, is false: upserting uid T.Alpha under a.md and then under b.md
leaves T.Alpha in byContentFile of a.md while byUid maps it to a topic
with sourceFile b.md; and a single upsert whose topic carries a
sourceFile different from the notified content file breaks the second
clause at once. -/
theorem C1_counterexample :
    ¬ Consistent c1StealState ∧ ¬ Consistent c1MismatchState := by
  constructor
  · rintro ⟨-, h2⟩
    obtain ⟨t2, hget, hsrc⟩ :=
      h2 "a.md" [c1TopicA] (by decide) c1TopicA (by decide)
    have he : mapGet c1StealState.topics c1TopicA.uid = some c1TopicB := by
      decide
    rw [he] at hget
    obtain rfl : c1TopicB = t2 := Option.some_inj.mp hget
    exact absurd hsrc (by decide)
  · rintro ⟨-, h2⟩
    obtain ⟨t2, hget, hsrc⟩ :=
      h2 "f.md" [c1MismatchTopic] (by decide) c1MismatchTopic (by decide)
    have he : mapGet c1MismatchState.topics c1MismatchTopic.uid =
        some c1MismatchTopic := by decide
    rw [he] at hget
    obtain rfl : c1MismatchTopic = t2 := Option.some_inj.mp hget
    exact absurd hsrc (by decide)

/-- C1 (amended): the index-consistency invariant holds in every state
reachable by bulk-load and change-notification operations from the
empty index, provided each operation writes only topics whose
sourceFile equals the content file they are recorded under and whose
uid is not currently mapped to a topic of a different content file. -/
theorem C1_index_consistency_amended (ops : List Op)
    (h : GoodTrace emptyCache ops) : Consistent (runOps ops) :=
  consistent_trace ops emptyCache consistent_empty h

theorem C1_index_consistency_amended_witness :
    GoodTrace emptyCache c1WitnessOps ∧ Consistent (runOps c1WitnessOps) := by
  have hg : GoodTrace emptyCache c1WitnessOps := by
    refine ⟨?_, ?_, trivial, trivial⟩
    · intro t hmem
      obtain rfl : t = c1TopicA := by simpa using hmem
      refine ⟨by decide, fun t1 h1 => ?_⟩
      simp [emptyCache, mapGet] at h1
    · intro t1 h1
      have he : mapGet
          (applyOp emptyCache (Op.upsert "a.md" [c1TopicA])).topics
          (normalizeTopic "proj" c1TopicA).uid = some c1TopicA := by decide
      rw [he] at h1
      obtain rfl : c1TopicA = t1 := Option.some_inj.mp h1
      decide
  exact ⟨hg, C1_index_consistency_amended c1WitnessOps hg⟩

/-! Fixtures for the population claims. -/

def scanTopic : TopicMetadata :=
  { uid := "S.One", type := "Conceptual", sourceFile := "s.md" }

/-- A cache with an open project and no topics yet. -/
def freshOpenCache : MetadataCache :=
  { docfxProjectOpen := true, topics := none, topicsByContentFile := none,
    populating := false }

/-- A cache with no open project. -/
def freshClosedCache : MetadataCache :=
  { docfxProjectOpen := false, topics := none, topicsByContentFile := none,
    populating := false }

/-- No snapshot on disk; the project scan succeeds with one topic. -/
def envScanOk : PopulateEnv :=
  { snapshotExists := false, snapshotParse := none,
    scanResult := some [scanTopic], projectDir := "proj" }

/-- The snapshot file exists but JSON.parse throws; the project scan
would succeed. -/
def envCorruptSnapshot : PopulateEnv :=
  { snapshotExists := true, snapshotParse := none,
    scanResult := some [scanTopic], projectDir := "proj" }

/-- C2: two concurrent ensurePopulated calls against an unpopulated cache
do start exactly one populate, but they do not observe the same
outcome: the initiating caller's promise resolves to null (the value of
the assignment in the then-callback) while the second caller's resolves
to true; and when populate rejects (no open project), the then-callback
is skipped, so the populatingPromise marker is never cleared. -/
theorem C2_single_flight_bug :
    (ensurePopulatedConcurrent freshOpenCache envScanOk 2).2.2 = 1 ∧
      (ensurePopulatedConcurrent freshOpenCache envScanOk 2).1 =
        [PromiseOutcome.resolvesNull, PromiseOutcome.resolvesBool true] ∧
      (ensurePopulatedConcurrent freshClosedCache envScanOk 2).2.1.populating
        = true := by
  refine ⟨by decide, by decide, by decide⟩

/-- C3: a failing population does not resolve false.  With no open
project, ensureOpenProject throws outside any catch and the caller's
promise rejects; with an open project and a failing load, the caller's
promise resolves to null, and afterwards the cache reports
isPopulated = true because the empty maps created at the start of the
try block are left in place. -/
theorem C3_population_failure_bug :
    (ensurePopulatedConcurrent freshClosedCache envScanOk 1).1 =
      [PromiseOutcome.rejects] ∧
      (ensurePopulatedConcurrent freshOpenCache envCorruptSnapshot 1).1 =
        [PromiseOutcome.resolvesNull] ∧
      isPopulated
        (ensurePopulatedConcurrent freshOpenCache envCorruptSnapshot 1).2.1
        = true := by
  refine ⟨by decide, by decide, by decide⟩

/-- C5: an unreadable snapshot is not treated like an absent one.  With
the same successful scan available, a corrupt snapshot makes the
population attempt resolve false (the JSON.parse exception lands in the
generic catch), while an absent snapshot lets the scan run and the
attempt resolve true. -/
theorem C5_counterexample :
    (loadTopicMetadataBody freshOpenCache envCorruptSnapshot).1 = false ∧
      (loadTopicMetadataBody freshOpenCache envScanOk).1 = true := by
  refine ⟨by decide, by decide⟩

/-- C5 (amended): when the snapshot file exists but its JSON cannot be
parsed, the population attempt fails: loadTopicMetadata resolves false
without consulting the scan, leaving the freshly created empty maps in
place; only snapshot absence triggers the full scan. -/
theorem C5_corrupt_snapshot_fails_population (c : MetadataCache)
    (env : PopulateEnv) (hex : env.snapshotExists = true)
    (hcor : env.snapshotParse = none) :
    (loadTopicMetadataBody c env).1 = false ∧
      (loadTopicMetadataBody c env).2.topics = some [] ∧
      (loadTopicMetadataBody c env).2.topicsByContentFile = some [] := by
  simp [loadTopicMetadataBody, loadTopicsFromCacheFile, hex, hcor]

theorem C5_corrupt_snapshot_fails_population_witness :
    envCorruptSnapshot.snapshotExists = true ∧
      envCorruptSnapshot.snapshotParse = none ∧
      ((loadTopicMetadataBody freshOpenCache envCorruptSnapshot).1 = false ∧
        (loadTopicMetadataBody freshOpenCache envCorruptSnapshot).2.topics =
          some [] ∧
        (loadTopicMetadataBody
            freshOpenCache envCorruptSnapshot).2.topicsByContentFile =
          some []) :=
  ⟨rfl, rfl,
    C5_corrupt_snapshot_fails_population freshOpenCache envCorruptSnapshot
      rfl rfl⟩

def c4TopicOld : TopicMetadata :=
  { uid := "M.One", type := "Conceptual", sourceFile := "x.md" }

def c4TopicNew : TopicMetadata :=
  { uid := "M.One", type := "Conceptual", sourceFile := "x.md",
    title := some "second write" }

def c4Ops : List Op :=
  [Op.upsert "x.md" [c4TopicOld], Op.upsert "x.md" [c4TopicNew]]

/-- C4: over every operation sequence (bulk loads, upserts and removals
included), the uid map keeps pairwise-distinct keys, and whenever a
topic is present for a uid it is exactly the most recently written
topic carrying that uid. -/
theorem C4_uid_unique_last_writer_wins (ops : List Op) (u : String)
    (t : TopicMetadata) (h : mapGet (runOps ops).topics u = some t) :
    (mapKeys (runOps ops).topics).Nodup ∧ lastWrite ops u = some t :=
  ⟨nodup_topics_runOps ops, lastWrite_runOps ops u t h⟩

theorem C4_uid_unique_last_writer_wins_witness :
    mapGet (runOps c4Ops).topics "M.One" = some c4TopicNew ∧
      ((mapKeys (runOps c4Ops).topics).Nodup ∧
        lastWrite c4Ops "M.One" = some c4TopicNew) :=
  ⟨by decide,
    C4_uid_unique_last_writer_wins c4Ops "M.One" c4TopicNew (by decide)⟩

def c6t1 : TopicMetadata :=
  { uid := "b.Type", type := "Conceptual", sourceFile := "b.md" }

def c6t2 : TopicMetadata :=
  { uid := "a.Method", type := "Conceptual", sourceFile := "am.md" }

def c6t3 : TopicMetadata :=
  { uid := "a.Type", type := "Conceptual", sourceFile := "at.md" }

def c6State : CacheState :=
  { topics := [("b.Type", c6t1), ("a.Method", c6t2), ("a.Type", c6t3)]
    topicsByContentFile :=
      [("b.md", [c6t1]), ("am.md", [c6t2]), ("at.md", [c6t3])] }

def c6ZTopic : TopicMetadata :=
  { uid := "Zebra.Type", type := "Conceptual", sourceFile := "z.md" }

def c6ATopic : TopicMetadata :=
  { uid := "apple.Method", type := "Conceptual", sourceFile := "ap.md" }

def c6MixedState : CacheState :=
  { topics := [("Zebra.Type", c6ZTopic), ("apple.Method", c6ATopic)]
    topicsByContentFile :=
      [("z.md", [c6ZTopic]), ("ap.md", [c6ATopic])] }

/-- C6: counterexample to the claimed lexicographic ordering.  Under a
consistent locale-aware comparator that, like the deployed host's ICU
collation, orders apple.Method before Zebra.Type, the returned item
sequence is apple.Method, Zebra.Type -- not sorted by ascending
lexicographic comparison of the UID strings, which orders Zebra.Type
(code point 90) strictly before apple.Method (code point 97). -/
theorem C6_counterexample :
    collateLe "apple.Method" "Zebra.Type" = true ∧
      collateLe "Zebra.Type" "apple.Method" = false ∧
      strLe "Zebra.Type" "apple.Method" = true ∧
      strLe "apple.Method" "Zebra.Type" = false ∧
      (getUIDItemsWith collateLe c6MixedState none).map (fun t => t.uid) =
        ["apple.Method", "Zebra.Type"] ∧
      ¬ List.Sorted topicUidLe
          (getUIDItemsWith collateLe c6MixedState none) := by
  refine ⟨by decide, by decide, by decide, by decide, by decide, by decide⟩

/-- C6 (amended): for every consistent comparator realizing the host's
localeCompare (total and transitive, as the Array.prototype.sort
comparator contract requires), every index state and every optional
detailed-type filter, the returned items are the filtered topic values
sorted ascending by that comparator (and a permutation of the filtered
topics); and whenever the comparator orders the example uids the way
both ICU collation and code-point order do, the example state lists
a.Method, a.Type, b.Type.  The collation order is not lexicographic
code-point order in general (see the counterexample). -/
theorem C6_list_ordering_amended (lcmp : String → String → Bool)
    (htotal : ∀ a b, lcmp a b = true ∨ lcmp b a = true)
    (htrans : ∀ a b c, lcmp a b = true → lcmp b c = true →
      lcmp a c = true) :
    (∀ (s : CacheState) (topicType : Option Nat),
        List.Sorted (uidLeBy lcmp) (getUIDItemsWith lcmp s topicType) ∧
          (getUIDItemsWith lcmp s topicType).Perm
            (filteredTopics s topicType)) ∧
      (lcmp "a.Method" "a.Type" = true → lcmp "b.Type" "a.Method" = false →
        lcmp "b.Type" "a.Type" = false →
        (getUIDItemsWith lcmp c6State none).map (fun t => t.uid) =
          ["a.Method", "a.Type", "b.Type"]) := by
  have instTot : IsTotal TopicMetadata (uidLeBy lcmp) :=
    ⟨fun a b => htotal a.uid b.uid⟩
  have instTr : IsTrans TopicMetadata (uidLeBy lcmp) :=
    ⟨fun a b c => htrans a.uid b.uid c.uid⟩
  constructor
  · intro s topicType
    exact ⟨@List.sorted_insertionSort _ _ _ instTot instTr _,
      List.perm_insertionSort _ _⟩
  · intro h1 h2 h3
    simp [getUIDItemsWith, filteredTopics, mapValues, c6State, c6t1, c6t2,
      c6t3, List.insertionSort, List.orderedInsert, uidLeBy, h1, h2, h3]

theorem C6_list_ordering_amended_witness :
    (∀ a b, strLe a b = true ∨ strLe b a = true) ∧
      (∀ a b c, strLe a b = true → strLe b c = true → strLe a c = true) ∧
      ((∀ (s : CacheState) (topicType : Option Nat),
          List.Sorted (uidLeBy strLe) (getUIDItemsWith strLe s topicType) ∧
            (getUIDItemsWith strLe s topicType).Perm
              (filteredTopics s topicType)) ∧
        (strLe "a.Method" "a.Type" = true →
          strLe "b.Type" "a.Method" = false →
          strLe "b.Type" "a.Type" = false →
          (getUIDItemsWith strLe c6State none).map (fun t => t.uid) =
            ["a.Method", "a.Type", "b.Type"])) :=
  ⟨fun a b => charsLe_total a.data b.data,
    fun a b c => charsLe_trans a.data b.data c.data,
    C6_list_ordering_amended strLe (fun a b => charsLe_total a.data b.data)
      (fun a b c => charsLe_trans a.data b.data c.data)⟩

def c7CmdletTopic : TopicMetadata :=
  { uid := "Invoke-Foo", type := "Reference.PowerShell",
    sourceFile := "ps.yml", memberType := some "Cmdlet" }

def c7FieldTopic : TopicMetadata :=
  { uid := "N.C.F", type := "Reference.Managed", sourceFile := "mref.yml",
    memberType := some "Field" }

/-- C7: the categorization table maps a PowerShell Cmdlet topic to
PowerShellCmdlet and an unrecognized managed member to Other exactly as
the claim's table says, but the TopicType enum assigns the value 6 to
both PowerShellCmdlet and Other, so the two detailed types are equal
and a filter for one also selects topics of the other. -/
theorem C7_enum_value_collision :
    categorizeTopic c7CmdletTopic = TopicType.PowerShellCmdlet ∧
      categorizeTopic c7FieldTopic = TopicType.Other ∧
      TopicType.PowerShellCmdlet = TopicType.Other ∧
      categorizeTopic c7CmdletTopic = categorizeTopic c7FieldTopic := by
  refine ⟨by decide, by decide, by decide, by decide⟩

/-- C8: a path is included exactly when, taken relative to the base
directory, it matches some expanded include pattern and no expanded
exclude pattern (createMatchers expands every double-star-dot shorthand
into a same-directory pattern and an any-depth pattern); in particular
the include pattern for markdown at any depth under base dir docs
matches both docs/readme.md and docs/a/b/readme.md. -/
theorem C8_glob_matcher_semantics :
    (∀ (baseDir : String) (includePatterns excludePatterns : List String)
        (filePath : String),
        (FileMatcher.create baseDir includePatterns
            excludePatterns).shouldIncludeFile filePath = true ↔
          ((createMatchers includePatterns).any
              (fun pat => globMatch pat (pathRelative baseDir filePath)) =
            true ∧
            ¬ (createMatchers excludePatterns).any
                (fun pat => globMatch pat (pathRelative baseDir filePath)) =
              true)) ∧
      (FileMatcher.create "docs" ["**.md"] []).shouldIncludeFile
        "docs/readme.md" = true ∧
      (FileMatcher.create "docs" ["**.md"] []).shouldIncludeFile
        "docs/a/b/readme.md" = true := by
  refine ⟨?_, by decide, by decide⟩
  intro baseDir inc exc p
  simp only [FileMatcher.shouldIncludeFile, FileMatcher.create]
  by_cases he : (createMatchers exc).any
      (fun pat => globMatch pat (pathRelative baseDir p)) = true
  · simp [he]
  · rw [Bool.not_eq_true] at he
    simp [he]

def c9Topic1 : TopicMetadata :=
  { uid := "R.One", type := "Conceptual", sourceFile := "r1.md",
    title := some "one" }

def c9Topic2 : TopicMetadata :=
  { uid := "R.Two", type := "Reference.Managed", sourceFile := "r2.yml",
    memberType := some "Class", detailedType := some 3 }

def c9State : CacheState :=
  { topics := [("R.One", c9Topic1), ("R.Two", c9Topic2)]
    topicsByContentFile := [("r1.md", [c9Topic1]), ("r2.yml", [c9Topic2])] }

/-- C9: persisting a populated index (whose entries are keyed by their
topic's uid, with pairwise-distinct keys and project-relative source
files, as population produces) and bulk-loading the snapshot back
rebuilds a byUid map equal to the original entry for entry, hence with
the same key set and identical topic fields. -/
theorem C9_snapshot_round_trip (s : CacheState) (projectDir : String)
    (hwf : ∀ p ∈ s.topics,
      p.1 = p.2.uid ∧ isAbsolutePath p.2.sourceFile = false)
    (hnd : (mapKeys s.topics).Nodup) :
    (reloadFromSnapshot projectDir (persistedSnapshot s)).topics =
      s.topics := by
  have h := reload_topics projectDir s.topics emptyCache hwf
    (fun p _ => by simp [emptyCache, mapKeys]) hnd
  simpa [reloadFromSnapshot, persistedSnapshot, emptyCache] using h

theorem C9_snapshot_round_trip_witness :
    (∀ p ∈ c9State.topics,
      p.1 = p.2.uid ∧ isAbsolutePath p.2.sourceFile = false) ∧
      (mapKeys c9State.topics).Nodup ∧
      (reloadFromSnapshot "proj" (persistedSnapshot c9State)).topics =
        c9State.topics :=
  ⟨by decide, by decide,
    C9_snapshot_round_trip c9State "proj" (by decide) (by decide)⟩

/-- C10: getTopics is not total.  For a path ending in none of the tested
suffixes the TS function falls off the end and its promise resolves to
undefined rather than an empty list, for every assignment of parser
results; paths ending in the JSON or table-of-contents suffixes do
resolve to the empty list. -/
theorem C10_getTopics_undefined_on_unknown_extension :
    ∀ ps : ContentParsers,
      getTopics ps "notes.txt" = none ∧
        getTopics ps "swagger.json" = some [] ∧
        getTopics ps "toc.yml" = some [] :=
  fun _ => ⟨rfl, rfl, rfl⟩

end DocFX
